import Mathlib

/-!
Shallow embedding of `pkg/tempofb/searchdata_util.go` (grafana tempo's
flatbuffer search-data utilities) together with the parts of its
collaborators that the spec pins down.

Modelling conventions:
* Go byte slices and strings are `List Nat` (one `Nat` per byte).
* `bytes.Compare` returns `-1/0/1`; we model it with `Ordering`
  (`lt/eq/gt`), and `ordVal` recovers the integer sign when needed.
* Flatbuffer tag containers (`FBTagContainer`: `TagsLength`, `Tags(kv, i)`)
  are modelled as a `List KeyValues`; positional decode `Tags(kv, i)` is
  `getD i`.  The caller-owned scratch `*KeyValues` buffer is implicit: the
  value a probe decodes is exactly the list element at the probed index.
* Offsets returned by the flatbuffer builder are modelled by the encoded
  record they reference.
-/

/-- Go byte slices / strings, one `Nat` per byte. -/
abbrev Bytes := List Nat

/-- Model of Go `bytes.Compare a b`: lexicographic byte comparison,
`lt`/`eq`/`gt` standing for the returned `-1`/`0`/`1`. -/
def bytesCompare : Bytes → Bytes → Ordering
  | [], [] => Ordering.eq
  | [], _ :: _ => Ordering.lt
  | _ :: _, [] => Ordering.gt
  | a :: as, b :: bs =>
    if a < b then Ordering.lt
    else if b < a then Ordering.gt
    else bytesCompare as bs

/-- The integer sign Go's comparator returns for each `Ordering`. -/
def ordVal : Ordering → Int
  | Ordering.lt => -1
  | Ordering.eq => 0
  | Ordering.gt => 1

/-- ASCII model of Go `bytes.ToLower` (the keys and queries in this
subsystem are ASCII tag names): bytes 65..90 are shifted to 97..122. -/
def bytesToLower (b : Bytes) : Bytes :=
  b.map (fun c => if 65 ≤ c ∧ c ≤ 90 then c + 32 else c)

/-- Model of Go `bytes.HasPrefix s p`. -/
def bytesStartsWith : Bytes → Bytes → Bool
  | _, [] => true
  | [], _ :: _ => false
  | a :: as, b :: bs => a == b && bytesStartsWith as bs

/-- Model of Go `bytes.Contains s sub`: `sub` occurs as a contiguous
byte subslice of `s`. -/
def bytesContains : Bytes → Bytes → Bool
  | [], sub => sub.isEmpty
  | c :: rest, sub => bytesStartsWith (c :: rest) sub || bytesContains rest sub

/-- Decoded flatbuffer `KeyValues` record: one key with its ordered list
of values (`KeyValues.Key()`, `KeyValues.Value(j)`, `ValueLength()`). -/
structure KeyValues where
  key : Bytes
  values : List Bytes
deriving DecidableEq

/-- Default scratch value for out-of-range positional decodes. -/
def KeyValues.nil : KeyValues := ⟨[], []⟩

/-- Source `binarySearch` (searchdata_util.go lines 197-215), loop turned
into fuel recursion on `j - i`; the tri-state comparator's `-1/0/1` is
`Ordering.lt/eq/gt`.  Go semantics: `case 0` returns `h`, `case -1` sets
`j = h`, `case 1` sets `i = h + 1`; `-1` is returned when `i ≥ j`. -/
def binarySearchGo (compare : Nat → Ordering) : Nat → Nat → Nat → Int
  | 0, _, _ => -1
  | fuel + 1, i, j =>
    if i < j then
      match compare ((i + j) / 2) with
      | Ordering.eq => Int.ofNat ((i + j) / 2)
      | Ordering.lt => binarySearchGo compare fuel i ((i + j) / 2)
      | Ordering.gt => binarySearchGo compare fuel ((i + j) / 2 + 1) j
    else -1

/-- Source `binarySearch n compare`: starts from the window `[0, n)`.
Fuel `n` bounds the iteration count, which never exceeds `j - i`. -/
def binarySearch (n : Nat) (compare : Nat → Ordering) : Int :=
  binarySearchGo compare n 0 n

/-- The comparator `FindTag` passes to `binarySearch`
(searchdata_util.go lines 180-184): decode index `i` into the scratch
buffer and return `bytes.Compare(kv.Key(), k)` — stored key first. -/
def findTagComparator (s : List KeyValues) (k : Bytes) (i : Nat) : Ordering :=
  bytesCompare ((s.getD i KeyValues.nil).key) k

/-- Source `FindTag` (searchdata_util.go lines 178-192): binary-search the
container; on `idx ≥ 0` the matched record (left decoded in the scratch
buffer by the final probe) is returned, else `nil` (here `none`). -/
def FindTag (s : List KeyValues) (k : Bytes) : Option KeyValues :=
  let idx := binarySearch s.length (findTagComparator s k)
  if 0 ≤ idx then some (s.getD idx.toNat KeyValues.nil) else none

/-- Source `ContainsTag` (searchdata_util.go lines 162-176): find the tag
by key, then linear-scan its values for one containing `v`. -/
def ContainsTag (s : List KeyValues) (k : Bytes) (v : Bytes) : Bool :=
  match FindTag s k with
  | some kv => kv.values.any (fun val => bytesContains val v)
  | none => false

/-- Source `SearchEntry.Contains` (searchdata_util.go lines 144-146):
delegates to `ContainsTag`. -/
def SearchEntry.Contains (s : List KeyValues) (k : Bytes) (v : Bytes) : Bool :=
  ContainsTag s k v

/-- The scan loop inside `SearchEntry.Get` (searchdata_util.go lines
130-135): first record whose key equals the (already lower-cased) query
yields `Value(0)`; otherwise the empty string. -/
def GetAux : List KeyValues → Bytes → Bytes
  | [], _ => []
  | kv :: rest, kb => if kv.key = kb then kv.values.getD 0 [] else GetAux rest kb

/-- Source `SearchEntry.Get` (searchdata_util.go lines 125-138):
lower-cases the key, then linear-scans for the first match. -/
def SearchEntry.Get (s : List KeyValues) (k : Bytes) : Bytes :=
  GetAux s (bytesToLower k)

/-- Modelled from the spec: lookup through `FindTag` taking `Value(0)` of
the match (the spec's phrasing of what `Get` refines: lower-case the key,
run section 4.5's binary search, return the first value, empty if the key
is absent).  Stated from the spec's words for the refinement claim; the
source implementation being compared against it is `SearchEntry.Get`. -/
def getViaFindTag (s : List KeyValues) (k : Bytes) : Bytes :=
  match FindTag s (bytesToLower k) with
  | some kv => kv.values.getD 0 []
  | none => []

/-- Modelled from the spec: `SearchDataMap.Add` (section 4.1, the
`SearchDataMap` implementation lives outside the provided sources):
inserts the (key, value) pair if absent, idempotent, no error.  The map
is modelled as the list of its distinct pairs in insertion order (the
spec's deterministic `Range` order only permutes this list, which none of
the verified claims can observe). -/
def SDMAdd (m : List (Bytes × Bytes)) (k v : Bytes) : List (Bytes × Bytes) :=
  if (k, v) ∈ m then m else m ++ [(k, v)]

/-- Source `SearchEntryMutable` (searchdata_util.go lines 11-16); the
lazily-allocated `SearchDataMap` is modelled with `[]` for `nil` (the two
are indistinguishable through `Add`/`Range`). -/
structure SearchEntryMutable where
  TraceID : Bytes
  Tags : List (Bytes × Bytes)
  StartTimeUnixNano : Nat
  EndTimeUnixNano : Nat
deriving DecidableEq

/-- The Go zero value of `SearchEntryMutable` (a fresh entry). -/
def SearchEntryMutable.empty : SearchEntryMutable := ⟨[], [], 0, 0⟩

/-- Source `SearchEntryMutable.AddTag` (searchdata_util.go lines 19-24). -/
def SearchEntryMutable.AddTag (s : SearchEntryMutable) (k v : Bytes) : SearchEntryMutable :=
  { s with Tags := SDMAdd s.Tags k v }

/-- Source `SearchEntryMutable.SetStartTimeUnixNano` (searchdata_util.go
lines 27-31): adopt `t` only when `t > 0` and (no value yet or `t`
strictly smaller). -/
def SearchEntryMutable.SetStartTimeUnixNano (s : SearchEntryMutable) (t : Nat) : SearchEntryMutable :=
  if 0 < t ∧ (s.StartTimeUnixNano = 0 ∨ t < s.StartTimeUnixNano) then
    { s with StartTimeUnixNano := t }
  else s

/-- Source `SearchEntryMutable.SetEndTimeUnixNano` (searchdata_util.go
lines 34-38): adopt `t` only when `t > 0` and `t` strictly larger. -/
def SearchEntryMutable.SetEndTimeUnixNano (s : SearchEntryMutable) (t : Nat) : SearchEntryMutable :=
  if 0 < t ∧ s.EndTimeUnixNano < t then
    { s with EndTimeUnixNano := t }
  else s

/-- Keys of a tag set, deduplicated, sorted in descending byte order. -/
def sortKeysDesc (l : List Bytes) : List Bytes :=
  List.insertionSort (fun a b => bytesCompare a b = Ordering.gt) l.dedup

/-- Modelled from the spec: `SearchDataMap.WriteToBuilder` (section 4.1
`write`, implementation outside the provided sources): encode the set as
a `KeyValues` vector read back in descending lexicographic key order
(section 3's invariant), each key carrying its distinct values (here in
insertion order; the spec orders them by value, which no verified claim
observes beyond membership). -/
def writeTagSet (m : List (Bytes × Bytes)) : List KeyValues :=
  (sortKeysDesc (m.map Prod.fst)).map
    (fun k => ⟨k, (m.filter (fun p => p.1 == k)).map Prod.snd⟩)

/-- Decoded form of one finished `SearchEntry` record (the wire format of
section 6; offsets into the flatbuffer are modelled by the record they
reference). -/
structure SearchEntryData where
  id : Bytes
  startTimeUnixNano : Nat
  endTimeUnixNano : Nat
  tags : List KeyValues
deriving DecidableEq

/-- Source `SearchEntryMutable.WriteToBuilder` (searchdata_util.go lines
47-62): encode id, both timestamps and the tag set as one entry record;
the returned flatbuffer offset is modelled by the record itself. -/
def SearchEntryMutable.WriteToBuilder (s : SearchEntryMutable) : SearchEntryData :=
  ⟨s.TraceID, s.StartTimeUnixNano, s.EndTimeUnixNano, writeTagSet s.Tags⟩

/-- Modelled from the spec: the out-of-scope flatbuffer builder stores
vector elements in reverse of the order they were prepended (sections 2
and 3: the buffer format stores elements "in reverse of the order they
were logically appended").  `prependAll xs` is the vector read back
positionally after `StartVector` / `Prepend` each element of `xs` in
order / `EndVector`. -/
def prependAll (xs : List α) : List α :=
  xs.foldl (fun acc e => e :: acc) []

/-- Decoded form of a finished `SearchPage` record. -/
structure SearchPage where
  entries : List SearchEntryData
  tags : List KeyValues
deriving DecidableEq

/-- Source `SearchPageBuilder` state (searchdata_util.go lines 64-68);
the underlying `flatbuffers.Builder` byte buffer is not part of the model
(its offsets are modelled by the records they reference). -/
structure SearchPageBuilder where
  allTags : List (Bytes × Bytes)
  pageEntries : List SearchEntryData
deriving DecidableEq

/-- Source `NewSearchPageBuilder` (searchdata_util.go lines 70-75). -/
def NewSearchPageBuilder : SearchPageBuilder := ⟨[], []⟩

/-- Source `SearchPageBuilder.AddData` (searchdata_util.go lines 77-90):
`Range` over the entry's tags adding each pair into the page-wide set
(membership-wise, iterating the stored pairs in any deterministic order
gives the same set), then write the entry and record its offset.  The
returned byte count is not modelled. -/
def SearchPageBuilder.AddData (b : SearchPageBuilder) (data : SearchEntryMutable) : SearchPageBuilder :=
  ⟨data.Tags.foldl (fun m p => SDMAdd m p.1 p.2) b.allTags,
   b.pageEntries ++ [data.WriteToBuilder]⟩

/-- Source `SearchPageBuilder.Finish` (searchdata_util.go lines 92-116):
build the entries vector by prepending the recorded offsets in forward
`range` order (lines 98-102), encode the page-wide tag set, and emit the
finished page. -/
def SearchPageBuilder.Finish (b : SearchPageBuilder) : SearchPage :=
  ⟨prependAll b.pageEntries, writeTagSet b.allTags⟩

/-- Source `SearchPageBuilder.Reset` (searchdata_util.go lines 118-122):
clear the offset list and install a fresh page-wide tag set (the buffer
rewind is invisible in this model). -/
def SearchPageBuilder.Reset (_ : SearchPageBuilder) : SearchPageBuilder :=
  ⟨[], []⟩

/-! ### Byte-comparison lemmas -/

theorem bytesCompare_eq_iff (a b : Bytes) : bytesCompare a b = Ordering.eq ↔ a = b := by
  induction a generalizing b with
  | nil => cases b <;> simp [bytesCompare]
  | cons x as ih =>
    cases b with
    | nil => simp [bytesCompare]
    | cons y bs =>
      by_cases h1 : x < y
      · simp only [bytesCompare, if_pos h1]
        constructor
        · intro h; cases h
        · rintro ⟨rfl, _⟩; omega
      · by_cases h2 : y < x
        · simp only [bytesCompare, if_neg h1, if_pos h2]
          constructor
          · intro h; cases h
          · rintro ⟨rfl, _⟩; omega
        · have hxy : x = y := by omega
          subst hxy
          simp [bytesCompare, ih]

theorem bytesCompare_gt_trans {a b c : Bytes}
    (h1 : bytesCompare a b = Ordering.gt) (h2 : bytesCompare b c = Ordering.gt) :
    bytesCompare a c = Ordering.gt := by
  induction a generalizing b c with
  | nil => cases b <;> simp [bytesCompare] at h1
  | cons x as ih =>
    cases b with
    | nil => cases c <;> simp [bytesCompare] at h2
    | cons y bs =>
      cases c with
      | nil => simp [bytesCompare]
      | cons z cs =>
        simp only [bytesCompare] at h1 h2 ⊢
        by_cases hxy : x < y
        · simp [if_pos hxy] at h1
        · by_cases hyx : y < x
          · by_cases hyz : y < z
            · simp [if_pos hyz] at h2
            · have hzx : z < x := by omega
              rw [if_neg (by omega), if_pos hzx]
          · have hxy2 : x = y := by omega
            subst hxy2
            rw [if_neg hxy, if_neg hyx] at h1
            by_cases hyz : x < z
            · simp [if_pos hyz] at h2
            · by_cases hzy : z < x
              · rw [if_neg hyz, if_pos hzy]
              · rw [if_neg hyz, if_neg hzy] at h2 ⊢
                exact ih h1 h2

/-! ### Binary-search lemmas -/

/-- Soundness of the bisection loop: any run either reports `-1` or lands
on an in-window index whose comparison is `eq`. -/
theorem binarySearchGo_cases (c : Nat → Ordering) :
    ∀ (fuel i j : Nat), binarySearchGo c fuel i j = -1 ∨
      ∃ h, binarySearchGo c fuel i j = Int.ofNat h ∧ i ≤ h ∧ h < j ∧
        c h = Ordering.eq := by
  intro fuel
  induction fuel with
  | zero => intro i j; left; rfl
  | succ fuel ih =>
    intro i j
    by_cases hij : i < j
    · cases hc : c ((i + j) / 2) with
      | eq =>
        right
        exact ⟨(i + j) / 2, by simp [binarySearchGo, hij, hc], by omega, by omega, hc⟩
      | lt =>
        rw [show binarySearchGo c (fuel + 1) i j = binarySearchGo c fuel i ((i + j) / 2) from
          by simp [binarySearchGo, hij, hc]]
        rcases ih i ((i + j) / 2) with h | ⟨h, hr, hi, hj, he⟩
        · left; exact h
        · right; exact ⟨h, hr, hi, by omega, he⟩
      | gt =>
        rw [show binarySearchGo c (fuel + 1) i j = binarySearchGo c fuel ((i + j) / 2 + 1) j from
          by simp [binarySearchGo, hij, hc]]
        rcases ih ((i + j) / 2 + 1) j with h | ⟨h, hr, hi, hj, he⟩
        · left; exact h
        · right; exact ⟨h, hr, by omega, hj, he⟩
    · left; simp [binarySearchGo, hij]

/-- Completeness of the bisection loop over a comparator that is antitone
on `[0, n)` (the shape `bytes.Compare(stored_desc, target)` has): if an
`eq` index lies in the current window and the fuel covers the window, the
loop does not report `-1`. -/
theorem binarySearchGo_complete (c : Nat → Ordering) (n : Nat)
    (hmono : ∀ q, q < n → ∀ p, p < q → ordVal (c q) ≤ ordVal (c p)) :
    ∀ (fuel i j m : Nat), j ≤ n → j - i ≤ fuel → i ≤ m → m < j →
      c m = Ordering.eq → 0 ≤ binarySearchGo c fuel i j := by
  intro fuel
  induction fuel with
  | zero => intro i j m _ hfuel him hmj _; omega
  | succ fuel ih =>
    intro i j m hjn hfuel him hmj hme
    have hij : i < j := by omega
    cases hc : c ((i + j) / 2) with
    | eq =>
      rw [show binarySearchGo c (fuel + 1) i j = Int.ofNat ((i + j) / 2) from
        by simp [binarySearchGo, hij, hc]]
      exact Int.ofNat_nonneg _
    | lt =>
      have hmh : m < (i + j) / 2 := by
        by_contra hge
        push_neg at hge
        rcases Nat.eq_or_lt_of_le hge with heq | hlt
        · rw [heq, hme] at hc; simp at hc
        · have := hmono m (by omega) ((i + j) / 2) hlt
          rw [hme, hc] at this
          simp [ordVal] at this
      rw [show binarySearchGo c (fuel + 1) i j = binarySearchGo c fuel i ((i + j) / 2) from
        by simp [binarySearchGo, hij, hc]]
      exact ih i ((i + j) / 2) m (by omega) (by omega) him hmh hme
    | gt =>
      have hmh : (i + j) / 2 < m := by
        by_contra hge
        push_neg at hge
        rcases Nat.eq_or_lt_of_le hge with heq | hlt
        · rw [← heq, hme] at hc; simp at hc
        · have := hmono ((i + j) / 2) (by omega) m hlt
          rw [hme, hc] at this
          simp [ordVal] at this
      rw [show binarySearchGo c (fuel + 1) i j = binarySearchGo c fuel ((i + j) / 2 + 1) j from
        by simp [binarySearchGo, hij, hc]]
      exact ih ((i + j) / 2 + 1) j m hjn (by omega) (by omega) hmj hme

/-- Soundness at the top level. -/
theorem binarySearch_sound (n : Nat) (c : Nat → Ordering) :
    binarySearch n c = -1 ∨
      ∃ h, binarySearch n c = Int.ofNat h ∧ h < n ∧ c h = Ordering.eq := by
  rcases binarySearchGo_cases c n 0 n with h | ⟨h, hr, _, hj, he⟩
  · left; exact h
  · right; exact ⟨h, hr, hj, he⟩

/-- Completeness at the top level. -/
theorem binarySearch_found (n : Nat) (c : Nat → Ordering)
    (hmono : ∀ q, q < n → ∀ p, p < q → ordVal (c q) ≤ ordVal (c p))
    (m : Nat) (hm : m < n) (hme : c m = Ordering.eq) : 0 ≤ binarySearch n c :=
  binarySearchGo_complete c n hmono n 0 n m (Nat.le_refl n) (by omega) (Nat.zero_le m) hm hme

/-! ### FindTag lemmas -/

/-- Keys strictly descending through the container, as read positionally
(section 3's invariant for validly encoded tag vectors). -/
def DescendingKeys (s : List KeyValues) : Prop :=
  List.Pairwise (fun a b => bytesCompare a.key b.key = Ordering.gt) s

instance (s : List KeyValues) : Decidable (DescendingKeys s) := by
  unfold DescendingKeys; infer_instance

/-- Over a strictly-descending container, the comparator `FindTag` builds
(`bytes.Compare(stored, target)`) is antitone in the probed index. -/
theorem findTagComparator_antitone (s : List KeyValues) (k : Bytes)
    (hdesc : DescendingKeys s) :
    ∀ q, q < s.length → ∀ p, p < q →
      ordVal (findTagComparator s k q) ≤ ordVal (findTagComparator s k p) := by
  intro q hq p hpq
  have hp : p < s.length := by omega
  have hgt : bytesCompare ((s.getD p KeyValues.nil).key)
      ((s.getD q KeyValues.nil).key) = Ordering.gt := by
    have h := List.pairwise_iff_get.mp hdesc ⟨p, hp⟩ ⟨q, hq⟩ hpq
    rw [List.getD_eq_getElem s _ hp, List.getD_eq_getElem s _ hq]
    exact h
  unfold findTagComparator
  cases hq2 : bytesCompare ((s.getD q KeyValues.nil).key) k with
  | lt =>
    cases bytesCompare ((s.getD p KeyValues.nil).key) k <;> simp [ordVal]
  | eq =>
    have hk : (s.getD q KeyValues.nil).key = k := (bytesCompare_eq_iff _ _).mp hq2
    rw [← hk, hgt]
    simp [ordVal]
  | gt =>
    rw [bytesCompare_gt_trans hgt hq2]

/-- Soundness of `FindTag`: a returned record is a member of the
container and its key equals the query byte-for-byte. -/
theorem FindTag_some_spec (s : List KeyValues) (k : Bytes) (kv : KeyValues)
    (h : FindTag s k = some kv) : kv ∈ s ∧ kv.key = k := by
  rcases binarySearch_sound s.length (findTagComparator s k) with hneg | ⟨idx, hr, hlt, heq⟩
  · simp only [FindTag, hneg] at h
    simp at h
  · simp only [FindTag, hr, if_pos (Int.ofNat_nonneg idx)] at h
    have htn : (Int.ofNat idx).toNat = idx := rfl
    rw [htn] at h
    have hkv : s.getD idx KeyValues.nil = kv := by
      exact Option.some.inj h
    constructor
    · rw [← hkv, List.getD_eq_getElem s _ hlt]
      exact List.getElem_mem hlt
    · rw [← hkv]
      exact (bytesCompare_eq_iff _ _).mp heq

/-- Completeness of `FindTag` on a strictly-descending container: a key
present in the container is found. -/
theorem FindTag_complete (s : List KeyValues) (k : Bytes) (hdesc : DescendingKeys s)
    (kv₀ : KeyValues) (hmem : kv₀ ∈ s) (hkey : kv₀.key = k) :
    ∃ kv, FindTag s k = some kv ∧ kv ∈ s ∧ kv.key = k := by
  obtain ⟨⟨m, hm⟩, hget⟩ := List.mem_iff_get.mp hmem
  have hcm : findTagComparator s k m = Ordering.eq := by
    unfold findTagComparator
    rw [List.getD_eq_getElem s _ hm]
    have hsm : s[m] = kv₀ := by rw [← hget]; rfl
    rw [hsm, hkey]
    exact (bytesCompare_eq_iff k k).mpr rfl
  have h0 := binarySearch_found s.length (findTagComparator s k)
    (findTagComparator_antitone s k hdesc) m hm hcm
  rcases binarySearch_sound s.length (findTagComparator s k) with hneg | ⟨idx, hr, hlt, heq⟩
  · rw [hneg] at h0; norm_num at h0
  · refine ⟨s.getD idx KeyValues.nil, ?_, ?_, ?_⟩
    · simp only [FindTag, hr]
      have hnn : (0 : Int) ≤ Int.ofNat idx := Int.ofNat_nonneg idx
      rw [if_pos hnn]
      rfl
    · rw [List.getD_eq_getElem s _ hlt]
      exact List.getElem_mem hlt
    · exact (bytesCompare_eq_iff _ _).mp heq

/-- A container whose keys never match the query yields `none`. -/
theorem FindTag_eq_none (s : List KeyValues) (k : Bytes)
    (h : ∀ kv ∈ s, kv.key ≠ k) : FindTag s k = none := by
  cases hf : FindTag s k with
  | none => rfl
  | some kv =>
    have hs := FindTag_some_spec s k kv hf
    exact absurd hs.2 (h kv hs.1)

/-- Strictly-descending keys are distinct: two members sharing a key are
the same record. -/
theorem DescendingKeys.key_unique {s : List KeyValues} (hdesc : DescendingKeys s)
    {kv1 kv2 : KeyValues} (h1 : kv1 ∈ s) (h2 : kv2 ∈ s)
    (hk : kv1.key = kv2.key) : kv1 = kv2 := by
  obtain ⟨⟨p, hp⟩, hg1⟩ := List.mem_iff_get.mp h1
  obtain ⟨⟨q, hq⟩, hg2⟩ := List.mem_iff_get.mp h2
  rcases lt_trichotomy p q with hlt | hpq | hgt
  · have h := List.pairwise_iff_get.mp hdesc ⟨p, hp⟩ ⟨q, hq⟩ hlt
    rw [hg1, hg2, hk] at h
    rw [(bytesCompare_eq_iff kv2.key kv2.key).mpr rfl] at h
    cases h
  · subst hpq
    rw [← hg1, ← hg2]
  · have h := List.pairwise_iff_get.mp hdesc ⟨q, hq⟩ ⟨p, hp⟩ hgt
    rw [hg1, hg2, hk] at h
    rw [(bytesCompare_eq_iff kv2.key kv2.key).mpr rfl] at h
    cases h

/-! ### Get-scan lemmas -/

/-- The linear scan misses when no key matches. -/
theorem GetAux_of_absent (s : List KeyValues) (kb : Bytes)
    (h : ∀ kv ∈ s, kv.key ≠ kb) : GetAux s kb = [] := by
  induction s with
  | nil => rfl
  | cons kv rest ih =>
    simp only [GetAux]
    rw [if_neg (h kv (by simp))]
    exact ih fun kv' hm => h kv' (by simp [hm])

/-- When the matching record is unique, the linear scan returns its first
value. -/
theorem GetAux_of_unique (s : List KeyValues) (kb : Bytes) (kv : KeyValues)
    (hmem : kv ∈ s) (hk : kv.key = kb)
    (huniq : ∀ kv' ∈ s, kv'.key = kb → kv' = kv) :
    GetAux s kb = kv.values.getD 0 [] := by
  induction s with
  | nil => cases hmem
  | cons hd rest ih =>
    by_cases hh : hd.key = kb
    · simp only [GetAux, if_pos hh]
      rw [huniq hd (by simp) hh]
    · simp only [GetAux, if_neg hh]
      have hmem' : kv ∈ rest := by
        rcases List.mem_cons.mp hmem with rfl | hr
        · exact absurd hk hh
        · exact hr
      exact ih hmem' fun kv' hm hk' => huniq kv' (by simp [hm]) hk'

/-! ### Substring lemmas -/

theorem bytesStartsWith_iff (s p : Bytes) :
    bytesStartsWith s p = true ↔ ∃ t, s = p ++ t := by
  induction p generalizing s with
  | nil =>
    cases s <;> simp [bytesStartsWith]
  | cons b bs ih =>
    cases s with
    | nil => simp [bytesStartsWith]
    | cons a as =>
      simp only [bytesStartsWith, Bool.and_eq_true, beq_iff_eq, ih, List.cons_append,
        List.cons.injEq]
      constructor
      · rintro ⟨rfl, t, rfl⟩
        exact ⟨t, rfl, rfl⟩
      · rintro ⟨t, rfl, rfl⟩
        exact ⟨rfl, t, rfl⟩

theorem bytesContains_iff (s v : Bytes) :
    bytesContains s v = true ↔ ∃ pre post, s = pre ++ v ++ post := by
  induction s with
  | nil =>
    simp only [bytesContains]
    constructor
    · intro h
      cases v with
      | nil => exact ⟨[], [], rfl⟩
      | cons c cs => simp at h
    · rintro ⟨pre, post, h⟩
      have h2 := h.symm
      simp only [List.append_eq_nil] at h2
      rcases h2 with ⟨⟨-, rfl⟩, -⟩
      rfl
  | cons c rest ih =>
    simp only [bytesContains, Bool.or_eq_true, bytesStartsWith_iff, ih]
    constructor
    · rintro (⟨t, h⟩ | ⟨pre, post, h⟩)
      · exact ⟨[], t, by simp [h]⟩
      · exact ⟨c :: pre, post, by simp [h]⟩
    · rintro ⟨pre, post, h⟩
      cases pre with
      | nil => exact Or.inl ⟨post, by simpa using h⟩
      | cons c' pre' =>
        right
        rcases List.cons.inj h with ⟨rfl, h2⟩
        exact ⟨pre', post, h2⟩

/-! ### Tag-set and builder lemmas -/

theorem SDMAdd_mem (m : List (Bytes × Bytes)) (k v : Bytes) (x : Bytes × Bytes) :
    x ∈ SDMAdd m k v ↔ x ∈ m ∨ x = (k, v) := by
  unfold SDMAdd
  split_ifs with h
  · constructor
    · exact Or.inl
    · rintro (hx | rfl)
      · exact hx
      · exact h
  · simp

theorem SDMAdd_nodup (m : List (Bytes × Bytes)) (k v : Bytes) (h : m.Nodup) :
    (SDMAdd m k v).Nodup := by
  unfold SDMAdd
  split_ifs with hm
  · exact h
  · simp [List.nodup_append, h, hm]

theorem foldl_SDMAdd_mem (ps : List (Bytes × Bytes)) (m : List (Bytes × Bytes))
    (x : Bytes × Bytes) :
    x ∈ ps.foldl (fun acc p => SDMAdd acc p.1 p.2) m ↔ x ∈ m ∨ x ∈ ps := by
  induction ps generalizing m with
  | nil => simp
  | cons p rest ih =>
    simp only [List.foldl_cons, ih, SDMAdd_mem, List.mem_cons]
    tauto

theorem foldl_SDMAdd_nodup (ps : List (Bytes × Bytes)) (m : List (Bytes × Bytes))
    (h : m.Nodup) :
    (ps.foldl (fun acc p => SDMAdd acc p.1 p.2) m).Nodup := by
  induction ps generalizing m with
  | nil => exact h
  | cons p rest ih => exact ih _ (SDMAdd_nodup _ _ _ h)

theorem allTags_foldl_AddData_mem (es : List SearchEntryMutable) (b : SearchPageBuilder)
    (x : Bytes × Bytes) :
    x ∈ (es.foldl SearchPageBuilder.AddData b).allTags ↔
      x ∈ b.allTags ∨ ∃ e ∈ es, x ∈ e.Tags := by
  induction es generalizing b with
  | nil => simp
  | cons e rest ih =>
    simp only [List.foldl_cons, ih, SearchPageBuilder.AddData, foldl_SDMAdd_mem,
      List.mem_cons, exists_eq_or_imp]
    tauto

theorem allTags_foldl_AddData_nodup (es : List SearchEntryMutable) (b : SearchPageBuilder)
    (h : b.allTags.Nodup) :
    (es.foldl SearchPageBuilder.AddData b).allTags.Nodup := by
  induction es generalizing b with
  | nil => exact h
  | cons e rest ih => exact ih _ (foldl_SDMAdd_nodup _ _ h)

theorem pageEntries_foldl_AddData (es : List SearchEntryMutable) (b : SearchPageBuilder) :
    (es.foldl SearchPageBuilder.AddData b).pageEntries =
      b.pageEntries ++ es.map SearchEntryMutable.WriteToBuilder := by
  induction es generalizing b with
  | nil => simp
  | cons e rest ih =>
    simp [List.foldl_cons, ih, SearchPageBuilder.AddData, List.append_assoc]

theorem prependAll_eq_reverse (xs : List α) : prependAll xs = xs.reverse := by
  have h : ∀ (ys acc : List α), ys.foldl (fun acc e => e :: acc) acc = ys.reverse ++ acc := by
    intro ys
    induction ys with
    | nil => intro acc; simp
    | cons y t ih => intro acc; simp [List.foldl_cons, ih]
  simp [prependAll, h]

/-! ### Min/max fold lemmas for the timestamp setters -/

theorem foldl_SetStart_spec (ts : List Nat) (s : SearchEntryMutable) :
    ((ts.foldl SearchEntryMutable.SetStartTimeUnixNano s).StartTimeUnixNano
        = s.StartTimeUnixNano ∨
      ((ts.foldl SearchEntryMutable.SetStartTimeUnixNano s).StartTimeUnixNano ∈ ts ∧
        0 < (ts.foldl SearchEntryMutable.SetStartTimeUnixNano s).StartTimeUnixNano)) ∧
    (∀ t ∈ ts, 0 < t →
      0 < (ts.foldl SearchEntryMutable.SetStartTimeUnixNano s).StartTimeUnixNano ∧
      (ts.foldl SearchEntryMutable.SetStartTimeUnixNano s).StartTimeUnixNano ≤ t) ∧
    (0 < s.StartTimeUnixNano →
      0 < (ts.foldl SearchEntryMutable.SetStartTimeUnixNano s).StartTimeUnixNano ∧
      (ts.foldl SearchEntryMutable.SetStartTimeUnixNano s).StartTimeUnixNano
        ≤ s.StartTimeUnixNano) := by
  induction ts generalizing s with
  | nil => simp
  | cons t rest ih =>
    simp only [List.foldl_cons]
    obtain ⟨ih1, ih2, ih3⟩ := ih (s.SetStartTimeUnixNano t)
    by_cases hc : 0 < t ∧ (s.StartTimeUnixNano = 0 ∨ t < s.StartTimeUnixNano)
    · have hupd : s.SetStartTimeUnixNano t = { s with StartTimeUnixNano := t } := by
        simp [SearchEntryMutable.SetStartTimeUnixNano, hc]
      rw [hupd] at ih1 ih2 ih3 ⊢
      have hst : ({ s with StartTimeUnixNano := t } : SearchEntryMutable).StartTimeUnixNano
          = t := rfl
      rw [hst] at ih1 ih3
      refine ⟨?_, ?_, ?_⟩
      · rcases ih1 with h | h
        · right; exact ⟨by simp [h, hc.1], by rw [h]; exact hc.1⟩
        · right; exact ⟨by simp [h.1], h.2⟩
      · intro u hu hu0
        rcases List.mem_cons.mp hu with rfl | hur
        · exact ih3 hu0
        · exact ih2 u hur hu0
      · intro hs0
        have ht := ih3 hc.1
        have : t ≤ s.StartTimeUnixNano := by
          rcases hc.2 with h0 | hlt
          · omega
          · omega
        exact ⟨ht.1, le_trans ht.2 this⟩
    · have hupd : s.SetStartTimeUnixNano t = s := by
        simp only [SearchEntryMutable.SetStartTimeUnixNano, if_neg hc]
      rw [hupd] at ih1 ih2 ih3 ⊢
      refine ⟨?_, ?_, ?_⟩
      · rcases ih1 with h | h
        · left; exact h
        · right; exact ⟨List.mem_cons_of_mem _ h.1, h.2⟩
      · intro u hu hu0
        rcases List.mem_cons.mp hu with rfl | hur
        · have hs0 : 0 < s.StartTimeUnixNano := by
            by_contra hz
            push_neg at hz
            exact hc ⟨hu0, Or.inl (by omega)⟩
          have hle : s.StartTimeUnixNano ≤ u := by
            by_contra hgt
            push_neg at hgt
            exact hc ⟨hu0, Or.inr hgt⟩
          have := ih3 hs0
          exact ⟨this.1, le_trans this.2 hle⟩
        · exact ih2 u hur hu0
      · exact ih3

theorem foldl_SetEnd_spec (us : List Nat) (s : SearchEntryMutable) :
    ((us.foldl SearchEntryMutable.SetEndTimeUnixNano s).EndTimeUnixNano
        = s.EndTimeUnixNano ∨
      ((us.foldl SearchEntryMutable.SetEndTimeUnixNano s).EndTimeUnixNano ∈ us ∧
        0 < (us.foldl SearchEntryMutable.SetEndTimeUnixNano s).EndTimeUnixNano)) ∧
    (∀ t ∈ us, 0 < t →
      0 < (us.foldl SearchEntryMutable.SetEndTimeUnixNano s).EndTimeUnixNano ∧
      t ≤ (us.foldl SearchEntryMutable.SetEndTimeUnixNano s).EndTimeUnixNano) ∧
    (0 < s.EndTimeUnixNano →
      0 < (us.foldl SearchEntryMutable.SetEndTimeUnixNano s).EndTimeUnixNano ∧
      s.EndTimeUnixNano
        ≤ (us.foldl SearchEntryMutable.SetEndTimeUnixNano s).EndTimeUnixNano) := by
  induction us generalizing s with
  | nil => simp
  | cons t rest ih =>
    simp only [List.foldl_cons]
    obtain ⟨ih1, ih2, ih3⟩ := ih (s.SetEndTimeUnixNano t)
    by_cases hc : 0 < t ∧ s.EndTimeUnixNano < t
    · have hupd : s.SetEndTimeUnixNano t = { s with EndTimeUnixNano := t } := by
        simp [SearchEntryMutable.SetEndTimeUnixNano, hc]
      rw [hupd] at ih1 ih2 ih3 ⊢
      have hst : ({ s with EndTimeUnixNano := t } : SearchEntryMutable).EndTimeUnixNano
          = t := rfl
      rw [hst] at ih1 ih3
      refine ⟨?_, ?_, ?_⟩
      · rcases ih1 with h | h
        · right; exact ⟨by simp [h], by rw [h]; exact hc.1⟩
        · right; exact ⟨by simp [h.1], h.2⟩
      · intro u hu hu0
        rcases List.mem_cons.mp hu with rfl | hur
        · exact ih3 hu0
        · exact ih2 u hur hu0
      · intro hs0
        have ht := ih3 hc.1
        exact ⟨ht.1, le_trans (le_of_lt hc.2) ht.2⟩
    · have hupd : s.SetEndTimeUnixNano t = s := by
        simp only [SearchEntryMutable.SetEndTimeUnixNano, if_neg hc]
      rw [hupd] at ih1 ih2 ih3 ⊢
      refine ⟨?_, ?_, ?_⟩
      · rcases ih1 with h | h
        · left; exact h
        · right; exact ⟨List.mem_cons_of_mem _ h.1, h.2⟩
      · intro u hu hu0
        rcases List.mem_cons.mp hu with rfl | hur
        · have hle : u ≤ s.EndTimeUnixNano := by
            by_contra hgt
            push_neg at hgt
            exact hc ⟨hu0, hgt⟩
          have hs0 : 0 < s.EndTimeUnixNano := by omega
          have := ih3 hs0
          exact ⟨this.1, le_trans hle this.2⟩
        · exact ih2 u hur hu0
      · exact ih3

/-- Folding the end-time setter never touches the start-time field. -/
theorem foldl_SetEnd_start (us : List Nat) (s : SearchEntryMutable) :
    (us.foldl SearchEntryMutable.SetEndTimeUnixNano s).StartTimeUnixNano
      = s.StartTimeUnixNano := by
  induction us generalizing s with
  | nil => rfl
  | cons t rest ih =>
    simp only [List.foldl_cons]
    rw [ih]
    unfold SearchEntryMutable.SetEndTimeUnixNano
    split_ifs <;> rfl

/-! ### Claim theorems -/

/-- C1 counterexample: with two distinct entries added in order, the
finished page's entries vector at position 0 holds the second-added
entry, not the 0-th recorded (first-added) one — refuting "reading the
finished page's entries vector at position i yields the i-th entry that
was added". -/
theorem C1_finish_order_counterexample :
    ((NewSearchPageBuilder.AddData ⟨[1], [], 0, 0⟩).AddData ⟨[2], [], 0, 0⟩).pageEntries[0]?
        = some (SearchEntryMutable.WriteToBuilder ⟨[1], [], 0, 0⟩) ∧
    ((NewSearchPageBuilder.AddData ⟨[1], [], 0, 0⟩).AddData ⟨[2], [], 0, 0⟩).Finish.entries[0]?
        = some (SearchEntryMutable.WriteToBuilder ⟨[2], [], 0, 0⟩) ∧
    SearchEntryMutable.WriteToBuilder ⟨[2], [], 0, 0⟩
        ≠ SearchEntryMutable.WriteToBuilder ⟨[1], [], 0, 0⟩ := by
  decide

/-- C1 (amended): Finish writes the recorded entry offsets with no
additional sort, but — because the underlying buffer stores prepended
vector elements in reverse — position i of the finished entries vector
holds the (n-1-i)-th added entry, i.e. the reverse of addition order. -/
theorem C1_finish_entries_reversed (b : SearchPageBuilder) (i : Nat)
    (h : i < b.pageEntries.length) :
    b.Finish.entries[i]? = b.pageEntries[b.pageEntries.length - 1 - i]? := by
  show (prependAll b.pageEntries)[i]? = _
  rw [prependAll_eq_reverse]
  exact List.getElem?_reverse h

/-- C1 witness: the amended statement evaluated on a two-entry page. -/
theorem C1_witness :
    0 < ((NewSearchPageBuilder.AddData ⟨[1], [], 0, 0⟩).AddData
        ⟨[2], [], 0, 0⟩).pageEntries.length ∧
    ((NewSearchPageBuilder.AddData ⟨[1], [], 0, 0⟩).AddData
        ⟨[2], [], 0, 0⟩).Finish.entries[0]?
      = ((NewSearchPageBuilder.AddData ⟨[1], [], 0, 0⟩).AddData
        ⟨[2], [], 0, 0⟩).pageEntries[
          ((NewSearchPageBuilder.AddData ⟨[1], [], 0, 0⟩).AddData
        ⟨[2], [], 0, 0⟩).pageEntries.length - 1 - 0]? :=
  ⟨by decide, C1_finish_entries_reversed _ 0 (by decide)⟩

/-- C2 counterexample: on the container with single stored key "b" and
target key "a", the comparator FindTag passes to the binary search
returns `gt` — the value of compare(stored_key, target_key) — while
compare(target_key, stored_key) is `lt`; so the claim's operand order
(compare(target_key, stored_key)) is not what the code computes. -/
theorem C2_comparator_counterexample :
    findTagComparator [⟨[98], [[49]]⟩] [97] 0
        ≠ bytesCompare [97] (([⟨[98], [[49]]⟩] : List KeyValues).getD 0 KeyValues.nil).key ∧
    findTagComparator [⟨[98], [[49]]⟩] [97] 0
        = bytesCompare (([⟨[98], [[49]]⟩] : List KeyValues).getD 0 KeyValues.nil).key [97] := by
  decide

/-- C2 (amended): the tri-state comparator FindTag passes to the binary
search computes compare(stored_key, target_key) — not
compare(target_key, stored_key) — and it is this operand order whose sign
convention matches the descending key order of the encoded tag vector:
with it, FindTag locates any key present in a strictly-descending
container. -/
theorem C2_comparator_stored_first (s : List KeyValues) (k : Bytes)
    (hdesc : DescendingKeys s) :
    (∀ i, findTagComparator s k i = bytesCompare ((s.getD i KeyValues.nil).key) k) ∧
    ((∃ kv ∈ s, kv.key = k) → ∃ kv, FindTag s k = some kv ∧ kv.key = k) := by
  refine ⟨fun i => rfl, ?_⟩
  rintro ⟨kv₀, hmem, hkey⟩
  obtain ⟨kv, hf, _, hk⟩ := FindTag_complete s k hdesc kv₀ hmem hkey
  exact ⟨kv, hf, hk⟩

/-- C2 witness: the amended statement on a concrete two-key descending
container. -/
theorem C2_witness :
    ∃ kv, FindTag [⟨[98], [[49]]⟩, ⟨[97], [[48]]⟩] [97] = some kv ∧ kv.key = [97] :=
  (C2_comparator_stored_first [⟨[98], [[49]]⟩, ⟨[97], [[48]]⟩] [97] (by decide)).2
    ⟨⟨[97], [[48]]⟩, by decide, rfl⟩

/-- C3: for every length n and every tri-state comparator consistent with
a total order over the sequence (antitone sign, at most one exact match),
binarySearch returns the first (indeed only) index reporting `eq`, and
-1 when the window empties with no index reporting `eq`. -/
theorem C3_binarySearch_exact (n : Nat) (compare : Nat → Ordering)
    (hmono : ∀ j, j < n → ∀ i, i < j → ordVal (compare j) ≤ ordVal (compare i))
    (huniq : ∀ j, j < n → ∀ i, i < j →
      ¬(compare i = Ordering.eq ∧ compare j = Ordering.eq)) :
    ((∀ m, m < n → compare m ≠ Ordering.eq) → binarySearch n compare = -1) ∧
    (∀ m, m < n → compare m = Ordering.eq →
      binarySearch n compare = Int.ofNat m ∧ ∀ i, i < m → compare i ≠ Ordering.eq) := by
  constructor
  · intro hno
    rcases binarySearch_sound n compare with h | ⟨h, hr, hlt, heq⟩
    · exact h
    · exact absurd heq (hno h hlt)
  · intro m hm hme
    have hmono2 : ∀ q, q < n → ∀ p, p < q → ordVal (compare q) ≤ ordVal (compare p) :=
      hmono
    have h0 := binarySearch_found n compare hmono2 m hm hme
    rcases binarySearch_sound n compare with h | ⟨h, hr, hlt, heq⟩
    · rw [h] at h0
      omega
    · have hem : h = m := by
        rcases lt_trichotomy h m with hlt2 | heq2 | hgt2
        · exact absurd ⟨heq, hme⟩ (huniq m hm h hlt2)
        · exact heq2
        · exact absurd ⟨hme, heq⟩ (huniq h hlt m hgt2)
      subst hem
      exact ⟨hr, fun i hi hie => huniq h hlt i hi ⟨hie, heq⟩⟩

/-- C3 witness: over the descending keys [c, b, a], searching "b" returns
index 1 and searching "z" returns -1. -/
theorem C3_witness :
    binarySearch 3 (findTagComparator
        [⟨[99], [[51]]⟩, ⟨[98], [[50]]⟩, ⟨[97], [[49]]⟩] [98]) = Int.ofNat 1 ∧
    binarySearch 3 (findTagComparator
        [⟨[99], [[51]]⟩, ⟨[98], [[50]]⟩, ⟨[97], [[49]]⟩] [122]) = -1 :=
  ⟨((C3_binarySearch_exact 3 (findTagComparator
        [⟨[99], [[51]]⟩, ⟨[98], [[50]]⟩, ⟨[97], [[49]]⟩] [98])
      (by decide) (by decide)).2 1 (by decide) (by decide)).1,
   (C3_binarySearch_exact 3 (findTagComparator
        [⟨[99], [[51]]⟩, ⟨[98], [[50]]⟩, ⟨[97], [[49]]⟩] [122])
      (by decide) (by decide)).1 (by decide)⟩

/-- C4: on every validly encoded entry (keys lower-cased, distinct, in
descending order), Get's lower-case-then-linear-scan returns exactly what
the FindTag-based binary-search lookup (taking Value(0) of the match, or
empty on a miss) returns, for every key. -/
theorem C4_Get_refines_FindTag (s : List KeyValues) (hdesc : DescendingKeys s)
    (_hlower : ∀ kv ∈ s, bytesToLower kv.key = kv.key) (k : Bytes) :
    SearchEntry.Get s k = getViaFindTag s k := by
  unfold SearchEntry.Get getViaFindTag
  by_cases hex : ∃ kv ∈ s, kv.key = bytesToLower k
  · obtain ⟨kv₀, hmem, hkey⟩ := hex
    obtain ⟨kv, hf, hmem2, hk2⟩ := FindTag_complete s (bytesToLower k) hdesc kv₀ hmem hkey
    rw [hf]
    exact GetAux_of_unique s (bytesToLower k) kv hmem2 hk2
      fun kv' hm' hk' => hdesc.key_unique hm' hmem2 (by rw [hk', hk2])
  · push_neg at hex
    rw [FindTag_eq_none s (bytesToLower k) hex]
    exact GetAux_of_absent s (bytesToLower k) hex

/-- C4 witness: the refinement evaluated on a concrete two-key entry with
the upper-case query "A", on which both lookups return "1". -/
theorem C4_witness :
    SearchEntry.Get [⟨[98], [[50]]⟩, ⟨[97], [[49]]⟩] [65]
        = getViaFindTag [⟨[98], [[50]]⟩, ⟨[97], [[49]]⟩] [65] ∧
    SearchEntry.Get [⟨[98], [[50]]⟩, ⟨[97], [[49]]⟩] [65] = [49] :=
  ⟨C4_Get_refines_FindTag [⟨[98], [[50]]⟩, ⟨[97], [[49]]⟩] (by decide) (by decide) [65],
   by decide⟩

/-- Folding the start-time setter never touches the end-time field. -/
theorem foldl_SetStart_endfield (ts : List Nat) (s : SearchEntryMutable) :
    (ts.foldl SearchEntryMutable.SetStartTimeUnixNano s).EndTimeUnixNano
      = s.EndTimeUnixNano := by
  induction ts generalizing s with
  | nil => rfl
  | cons t rest ih =>
    simp only [List.foldl_cons]
    rw [ih]
    unfold SearchEntryMutable.SetStartTimeUnixNano
    split_ifs <;> rfl

/-- C5: starting from a fresh SearchEntryMutable, after any sequence of
SetStartTimeUnixNano calls followed by any sequence of
SetEndTimeUnixNano calls, the start time is the minimum of the non-zero
start arguments (0 when none) and the end time is the maximum of the
non-zero end arguments (0 when none); zero arguments are ignored. -/
theorem C5_setters_minmax (ts us : List Nat) :
    ((∀ t ∈ ts, t = 0) →
      (us.foldl SearchEntryMutable.SetEndTimeUnixNano
        (ts.foldl SearchEntryMutable.SetStartTimeUnixNano
          SearchEntryMutable.empty)).StartTimeUnixNano = 0) ∧
    ((∃ t ∈ ts, 0 < t) →
      (0 < (us.foldl SearchEntryMutable.SetEndTimeUnixNano
          (ts.foldl SearchEntryMutable.SetStartTimeUnixNano
            SearchEntryMutable.empty)).StartTimeUnixNano ∧
        (us.foldl SearchEntryMutable.SetEndTimeUnixNano
          (ts.foldl SearchEntryMutable.SetStartTimeUnixNano
            SearchEntryMutable.empty)).StartTimeUnixNano ∈ ts ∧
        ∀ t ∈ ts, 0 < t →
          (us.foldl SearchEntryMutable.SetEndTimeUnixNano
            (ts.foldl SearchEntryMutable.SetStartTimeUnixNano
              SearchEntryMutable.empty)).StartTimeUnixNano ≤ t)) ∧
    ((∀ t ∈ us, t = 0) →
      (us.foldl SearchEntryMutable.SetEndTimeUnixNano
        (ts.foldl SearchEntryMutable.SetStartTimeUnixNano
          SearchEntryMutable.empty)).EndTimeUnixNano = 0) ∧
    ((∃ t ∈ us, 0 < t) →
      (0 < (us.foldl SearchEntryMutable.SetEndTimeUnixNano
          (ts.foldl SearchEntryMutable.SetStartTimeUnixNano
            SearchEntryMutable.empty)).EndTimeUnixNano ∧
        (us.foldl SearchEntryMutable.SetEndTimeUnixNano
          (ts.foldl SearchEntryMutable.SetStartTimeUnixNano
            SearchEntryMutable.empty)).EndTimeUnixNano ∈ us ∧
        ∀ t ∈ us, 0 < t →
          t ≤ (us.foldl SearchEntryMutable.SetEndTimeUnixNano
            (ts.foldl SearchEntryMutable.SetStartTimeUnixNano
              SearchEntryMutable.empty)).EndTimeUnixNano)) := by
  have hstart := foldl_SetStart_spec ts SearchEntryMutable.empty
  have hpres := foldl_SetEnd_start us (ts.foldl SearchEntryMutable.SetStartTimeUnixNano
    SearchEntryMutable.empty)
  have hend := foldl_SetEnd_spec us (ts.foldl SearchEntryMutable.SetStartTimeUnixNano
    SearchEntryMutable.empty)
  have hend0 : (ts.foldl SearchEntryMutable.SetStartTimeUnixNano
      SearchEntryMutable.empty).EndTimeUnixNano = 0 := by
    rw [foldl_SetStart_endfield]
    rfl
  refine ⟨?_, ?_, ?_, ?_⟩
  · intro hall
    rw [hpres]
    rcases hstart.1 with h | h
    · exact h
    · exact absurd (hall _ h.1) (by omega)
  · rintro ⟨t, ht, ht0⟩
    have hb := hstart.2.1 t ht ht0
    have hmem : (ts.foldl SearchEntryMutable.SetStartTimeUnixNano
        SearchEntryMutable.empty).StartTimeUnixNano ∈ ts := by
      rcases hstart.1 with h | h
      · rw [h] at hb
        exact absurd hb.1 (by simp [SearchEntryMutable.empty])
      · exact h.1
    rw [hpres]
    exact ⟨hb.1, hmem, fun u hu hu0 => (hstart.2.1 u hu hu0).2⟩
  · intro hall
    rcases hend.1 with h | h
    · rw [h, hend0]
    · exact absurd (hall _ h.1) (by omega)
  · rintro ⟨t, ht, ht0⟩
    have hb := hend.2.1 t ht ht0
    have hmem : (us.foldl SearchEntryMutable.SetEndTimeUnixNano
        (ts.foldl SearchEntryMutable.SetStartTimeUnixNano
          SearchEntryMutable.empty)).EndTimeUnixNano ∈ us := by
      rcases hend.1 with h | h
      · rw [h, hend0] at hb
        exact absurd hb.1 (by omega)
      · exact h.1
    exact ⟨hb.1, hmem, fun u hu hu0 => (hend.2.1 u hu hu0).2⟩

/-- C5 witness: start inputs [0,5,3,0,9] pin the start time to 3 and end
inputs [0,5,9,3] pin the end time to 9 (membership and the bounds force
the exact values). -/
theorem C5_witness :
    0 < (([0, 5, 9, 3] : List Nat).foldl SearchEntryMutable.SetEndTimeUnixNano
        (([0, 5, 3, 0, 9] : List Nat).foldl SearchEntryMutable.SetStartTimeUnixNano
          SearchEntryMutable.empty)).StartTimeUnixNano ∧
    (([0, 5, 9, 3] : List Nat).foldl SearchEntryMutable.SetEndTimeUnixNano
        (([0, 5, 3, 0, 9] : List Nat).foldl SearchEntryMutable.SetStartTimeUnixNano
          SearchEntryMutable.empty)).StartTimeUnixNano ∈ ([0, 5, 3, 0, 9] : List Nat) ∧
    (([0, 5, 9, 3] : List Nat).foldl SearchEntryMutable.SetEndTimeUnixNano
        (([0, 5, 3, 0, 9] : List Nat).foldl SearchEntryMutable.SetStartTimeUnixNano
          SearchEntryMutable.empty)).StartTimeUnixNano ≤ 3 ∧
    0 < (([0, 5, 9, 3] : List Nat).foldl SearchEntryMutable.SetEndTimeUnixNano
        (([0, 5, 3, 0, 9] : List Nat).foldl SearchEntryMutable.SetStartTimeUnixNano
          SearchEntryMutable.empty)).EndTimeUnixNano ∧
    (([0, 5, 9, 3] : List Nat).foldl SearchEntryMutable.SetEndTimeUnixNano
        (([0, 5, 3, 0, 9] : List Nat).foldl SearchEntryMutable.SetStartTimeUnixNano
          SearchEntryMutable.empty)).EndTimeUnixNano ∈ ([0, 5, 9, 3] : List Nat) ∧
    9 ≤ (([0, 5, 9, 3] : List Nat).foldl SearchEntryMutable.SetEndTimeUnixNano
        (([0, 5, 3, 0, 9] : List Nat).foldl SearchEntryMutable.SetStartTimeUnixNano
          SearchEntryMutable.empty)).EndTimeUnixNano := by
  have h := C5_setters_minmax [0, 5, 3, 0, 9] [0, 5, 9, 3]
  obtain ⟨hs1, hs2, hs3⟩ := h.2.1 ⟨5, by decide, by decide⟩
  obtain ⟨he1, he2, he3⟩ := h.2.2.2 ⟨9, by decide, by decide⟩
  exact ⟨hs1, hs2, hs3 3 (by decide) (by decide), he1, he2, he3 9 (by decide) (by decide)⟩

/-- C6: after adding any sequence of entries to a fresh page builder, the
page-wide tag set is exactly the deduplicated union of the entries' tag
pairs: it is duplicate-free and contains a pair iff some added entry
carried it. -/
theorem C6_allTags_union (entries : List SearchEntryMutable) :
    (entries.foldl SearchPageBuilder.AddData NewSearchPageBuilder).allTags.Nodup ∧
    ∀ k v, (k, v) ∈ (entries.foldl SearchPageBuilder.AddData NewSearchPageBuilder).allTags ↔
      ∃ e ∈ entries, (k, v) ∈ e.Tags := by
  constructor
  · exact allTags_foldl_AddData_nodup entries NewSearchPageBuilder List.nodup_nil
  · intro k v
    rw [allTags_foldl_AddData_mem]
    simp [NewSearchPageBuilder]

/-- C6 witness: one entry carrying ("k","v1") and another carrying
("k","v2") yield a page whose tag set holds both pairs, and whose
finished union tag list carries both values under key "k". -/
theorem C6_witness :
    ([107], [118, 49]) ∈ (List.foldl SearchPageBuilder.AddData NewSearchPageBuilder
        [⟨[1], [([107], [118, 49])], 0, 0⟩, ⟨[2], [([107], [118, 50])], 0, 0⟩]).allTags ∧
    ([107], [118, 50]) ∈ (List.foldl SearchPageBuilder.AddData NewSearchPageBuilder
        [⟨[1], [([107], [118, 49])], 0, 0⟩, ⟨[2], [([107], [118, 50])], 0, 0⟩]).allTags ∧
    (List.foldl SearchPageBuilder.AddData NewSearchPageBuilder
        [⟨[1], [([107], [118, 49])], 0, 0⟩, ⟨[2], [([107], [118, 50])], 0, 0⟩]).Finish.tags
      = [⟨[107], [[118, 49], [118, 50]]⟩] :=
  ⟨((C6_allTags_union [⟨[1], [([107], [118, 49])], 0, 0⟩,
      ⟨[2], [([107], [118, 50])], 0, 0⟩]).2 [107] [118, 49]).mpr
      ⟨⟨[1], [([107], [118, 49])], 0, 0⟩, by decide, by decide⟩,
   ((C6_allTags_union [⟨[1], [([107], [118, 49])], 0, 0⟩,
      ⟨[2], [([107], [118, 50])], 0, 0⟩]).2 [107] [118, 50]).mpr
      ⟨⟨[2], [([107], [118, 50])], 0, 0⟩, by decide, by decide⟩,
   by decide⟩

/-- C7: on a validly encoded (descending-key) tag container, Contains
returns true iff the container has a tag whose key exactly equals the
query key and at least one of whose values holds the fragment as a
contiguous byte substring; an absent key is a plain false, not an
error. -/
theorem C7_Contains_iff (s : List KeyValues) (hdesc : DescendingKeys s) (k v : Bytes) :
    SearchEntry.Contains s k v = true ↔
      ∃ kv ∈ s, kv.key = k ∧ ∃ val ∈ kv.values, ∃ pre post, val = pre ++ v ++ post := by
  cases hf : FindTag s k with
  | none =>
    have hc : SearchEntry.Contains s k v = false := by
      unfold SearchEntry.Contains ContainsTag
      rw [hf]
    rw [hc]
    constructor
    · intro h
      exact absurd h (by simp)
    · rintro ⟨kv, hmem, hkey, -⟩
      obtain ⟨kv2, hf2, -, -⟩ := FindTag_complete s k hdesc kv hmem hkey
      rw [hf] at hf2
      exact Option.noConfusion hf2
  | some kv =>
    have hspec := FindTag_some_spec s k kv hf
    have hc : SearchEntry.Contains s k v
        = kv.values.any (fun val => bytesContains val v) := by
      unfold SearchEntry.Contains ContainsTag
      rw [hf]
    rw [hc, List.any_eq_true]
    constructor
    · rintro ⟨val, hval, hcont⟩
      exact ⟨kv, hspec.1, hspec.2, val, hval, (bytesContains_iff val v).mp hcont⟩
    · rintro ⟨kv2, hmem2, hkey2, val, hval, hsub⟩
      have heq : kv2 = kv := hdesc.key_unique hmem2 hspec.1 (by rw [hkey2, hspec.2])
      subst heq
      exact ⟨val, hval, (bytesContains_iff val v).mpr hsub⟩

/-- C7 witness: tag "host" -> "example.com": the fragment "example" is
contained (substring match), and the absent key "miss" yields false. -/
theorem C7_witness :
    SearchEntry.Contains
        [⟨[104, 111, 115, 116], [[101, 120, 97, 109, 112, 108, 101, 46, 99, 111, 109]]⟩]
        [104, 111, 115, 116] [101, 120, 97, 109, 112, 108, 101] = true ∧
    SearchEntry.Contains
        [⟨[104, 111, 115, 116], [[101, 120, 97, 109, 112, 108, 101, 46, 99, 111, 109]]⟩]
        [109, 105, 115, 115] [101] = false :=
  ⟨(C7_Contains_iff
      [⟨[104, 111, 115, 116], [[101, 120, 97, 109, 112, 108, 101, 46, 99, 111, 109]]⟩]
      (by decide) [104, 111, 115, 116] [101, 120, 97, 109, 112, 108, 101]).mpr
      ⟨⟨[104, 111, 115, 116], [[101, 120, 97, 109, 112, 108, 101, 46, 99, 111, 109]]⟩,
        by decide, rfl,
        [101, 120, 97, 109, 112, 108, 101, 46, 99, 111, 109], by decide,
        [], [46, 99, 111, 109], by decide⟩,
   by decide⟩

/-- C8: Reset empties the entry-offset list and the page-wide tag set, so
building after a Reset behaves exactly like building on a fresh builder:
the next finished page holds only the entries added after the reset (in
prepend order) and only their tags. -/
theorem C8_reset_reuse (b : SearchPageBuilder) (news : List SearchEntryMutable) :
    b.Reset.pageEntries = [] ∧ b.Reset.allTags = [] ∧
    (news.foldl SearchPageBuilder.AddData b.Reset).Finish
      = (news.foldl SearchPageBuilder.AddData NewSearchPageBuilder).Finish ∧
    (news.foldl SearchPageBuilder.AddData b.Reset).Finish.entries
      = prependAll (news.map SearchEntryMutable.WriteToBuilder) ∧
    ∀ k v, (k, v) ∈ (news.foldl SearchPageBuilder.AddData b.Reset).allTags ↔
      ∃ e ∈ news, (k, v) ∈ e.Tags := by
  refine ⟨rfl, rfl, rfl, ?_, ?_⟩
  · show prependAll (news.foldl SearchPageBuilder.AddData b.Reset).pageEntries = _
    rw [pageEntries_foldl_AddData]
    rfl
  · intro k v
    rw [allTags_foldl_AddData_mem]
    simp [SearchPageBuilder.Reset]

/-- C8 witness: finish, reset, then add a fresh entry: the second page
holds exactly the new entry and its tag, nothing from the first page. -/
theorem C8_witness :
    (List.foldl SearchPageBuilder.AddData
        ((NewSearchPageBuilder.AddData ⟨[1], [([107], [118, 49])], 0, 0⟩).Reset)
        [⟨[2], [([108], [118, 50])], 0, 0⟩]).Finish.entries
      = prependAll ([⟨[2], [([108], [118, 50])], 0, 0⟩].map
          SearchEntryMutable.WriteToBuilder) ∧
    (([107], [118, 49]) ∈ (List.foldl SearchPageBuilder.AddData
        ((NewSearchPageBuilder.AddData ⟨[1], [([107], [118, 49])], 0, 0⟩).Reset)
        [⟨[2], [([108], [118, 50])], 0, 0⟩]).allTags ↔
      ∃ e ∈ [(⟨[2], [([108], [118, 50])], 0, 0⟩ : SearchEntryMutable)],
        ([107], [118, 49]) ∈ e.Tags) :=
  ⟨(C8_reset_reuse (NewSearchPageBuilder.AddData ⟨[1], [([107], [118, 49])], 0, 0⟩)
      [⟨[2], [([108], [118, 50])], 0, 0⟩]).2.2.2.1,
   (C8_reset_reuse (NewSearchPageBuilder.AddData ⟨[1], [([107], [118, 49])], 0, 0⟩)
      [⟨[2], [([108], [118, 50])], 0, 0⟩]).2.2.2.2 [107] [118, 49]⟩

/-- C10: FindTag and Contains compare the caller's key byte-for-byte
without lower-casing it, so on a container whose stored keys hold no
upper-case ASCII byte, any query key holding one never matches: FindTag
yields none and Contains yields false for every fragment (while Get,
which lower-cases, can still succeed on the same key). -/
theorem C10_uppercase_key_never_matches (s : List KeyValues) (k : Bytes)
    (hlower : ∀ kv ∈ s, ∀ c ∈ kv.key, ¬(65 ≤ c ∧ c ≤ 90))
    (hupper : ∃ c ∈ k, 65 ≤ c ∧ c ≤ 90) :
    FindTag s k = none ∧ ∀ v, SearchEntry.Contains s k v = false := by
  have hne : ∀ kv ∈ s, kv.key ≠ k := by
    intro kv hmem hk
    obtain ⟨c, hc, hcu⟩ := hupper
    rw [← hk] at hc
    exact hlower kv hmem c hc hcu
  have hf : FindTag s k = none := FindTag_eq_none s k hne
  refine ⟨hf, fun v => ?_⟩
  unfold SearchEntry.Contains ContainsTag
  rw [hf]

/-- C10 witness: stored key "key" (lower-case); the query "KEY" misses
FindTag and Contains, while Get on the same string still returns the
value "v". -/
theorem C10_witness :
    FindTag [⟨[107, 101, 121], [[118]]⟩] [75, 69, 89] = none ∧
    SearchEntry.Contains [⟨[107, 101, 121], [[118]]⟩] [75, 69, 89] [118] = false ∧
    SearchEntry.Get [⟨[107, 101, 121], [[118]]⟩] [75, 69, 89] = [118] :=
  ⟨(C10_uppercase_key_never_matches [⟨[107, 101, 121], [[118]]⟩] [75, 69, 89]
      (by decide) (by decide)).1,
   (C10_uppercase_key_never_matches [⟨[107, 101, 121], [[118]]⟩] [75, 69, 89]
      (by decide) (by decide)).2 [118],
   by decide⟩
